import Mathlib

/-!
Verification development for the area-color-viewer repository.

The repository converts raster images to color-frequency statistics in the
OKLab/OKLCH color space and aggregates them into spatial bins.  This file
embeds the algorithmically relevant functions in Lean:

* the bisection search `maxGamutChroma` from `visualize_tone_map.py`
  (the embedded JavaScript), modelled over `ℚ` with the gamut predicate
  abstracted, exactly as the spec treats gamut monotonicity as a
  documented precondition;
* the spatial binning index computations of `visualize_multiview.py`
  (`computeVoxels`) and `visualize_tone_map.py` (`binData`), modelled
  over `ℚ` (the inputs are decimal-rounded values, floors and min/mod
  are exact);
* the color extraction pipeline of `extract_colors.py` (counting and
  sorting), modelled over lists;
* the real-valued color conversions of `color_utils.py` and the embedded
  scripts, modelled over `ℝ` with `Complex.arg` playing the role of
  `atan2`.

Machine floating point is modelled by exact real/rational arithmetic.
-/

namespace AreaColorViewer

/-! ## Bisection search for the maximal in-gamut chroma

Source: `visualize_tone_map.py`, embedded JS `maxGamutChroma(L, H)`:

    let lo = 0, hi = 0.4;
    for (let i = 0; i < 20; i++) {
        const mid = (lo + hi) / 2;
        if (isInSrgbGamut(L, mid, H)) lo = mid;
        else hi = mid;
    }
    return lo;

The gamut predicate at fixed (L, H), as a function of chroma, is
abstracted as `P : ℚ → Bool`; the spec documents monotonicity of `P`
as a precondition of the search rather than a proved fact. -/

def bisect (P : ℚ → Bool) : ℕ → ℚ → ℚ → ℚ
  | 0, lo, _ => lo
  | n + 1, lo, hi =>
    let mid := (lo + hi) / 2
    if P mid then bisect P n mid hi else bisect P n lo mid

def maxGamutChroma (P : ℚ → Bool) : ℚ := bisect P 20 0 0.4

lemma bisect_spec (P : ℚ → Bool) (n : ℕ) :
    ∀ (lo hi : ℚ), P lo = true → P hi = false →
      P (bisect P n lo hi) = true ∧
      P (bisect P n lo hi + (hi - lo) / 2 ^ n) = false := by
  induction n with
  | zero =>
    intro lo hi hlo hhi
    refine ⟨hlo, ?_⟩
    have h : lo + (hi - lo) / 2 ^ 0 = hi := by ring
    rw [bisect, h]
    exact hhi
  | succ n ih =>
    intro lo hi hlo hhi
    rw [bisect]
    by_cases h : P ((lo + hi) / 2) = true
    · simp only [h, if_true]
      have h2 : (hi - (lo + hi) / 2) / 2 ^ n = (hi - lo) / 2 ^ (n + 1) := by
        ring
      have := ih ((lo + hi) / 2) hi h hhi
      rwa [h2] at this
    · have hfalse : P ((lo + hi) / 2) = false := by
        cases hP : P ((lo + hi) / 2) with
        | false => rfl
        | true => exact absurd hP h
      simp only [hfalse, Bool.false_eq_true, if_false]
      have h2 : ((lo + hi) / 2 - lo) / 2 ^ n = (hi - lo) / 2 ^ (n + 1) := by
        ring
      have := ih lo ((lo + hi) / 2) hlo hfalse
      rwa [h2] at this

/-- C2: under the precondition that gamut membership `P` is monotonically
non-increasing in chroma, and given that `P` holds at chroma `0` and fails
at the upper search bound `0.4`, the 20-iteration bisection
`maxGamutChroma` returns a value below which membership always holds and
above which (beyond the bisection resolution `0.4 / 2 ^ 20 ≈ 4e-7`)
membership always fails. -/
theorem maxGamutChroma_correct (P : ℚ → Bool)
    (mono : ∀ c c' : ℚ, c ≤ c' → P c' = true → P c = true)
    (h0 : P 0 = true) (h04 : P 0.4 = false) (c : ℚ) :
    (c ≤ maxGamutChroma P → P c = true) ∧
    (maxGamutChroma P + 0.4 / 2 ^ 20 < c → P c = false) := by
  obtain ⟨hres, hout⟩ := bisect_spec P 20 0 0.4 h0 h04
  have hq : (0.4 - 0 : ℚ) / 2 ^ 20 = 0.4 / 2 ^ 20 := by ring
  rw [hq] at hout
  rw [show maxGamutChroma P = bisect P 20 0 0.4 from rfl]
  constructor
  · intro hc
    exact mono c (bisect P 20 0 0.4) hc hres
  · intro hc
    cases hPc : P c with
    | false => rfl
    | true =>
      have := mono (bisect P 20 0 0.4 + 0.4 / 2 ^ 20) c (le_of_lt hc) hPc
      rw [this] at hout
      exact absurd hout (by simp)

/-- Synthetic monotone gamut predicate used to witness
`maxGamutChroma_correct` at a concrete input. -/
def chromaLeEighth (c : ℚ) : Bool := decide (c ≤ 1 / 8)

theorem maxGamutChroma_correct_witness :
    chromaLeEighth 0 = true ∧ chromaLeEighth 0.4 = false ∧
    (((0 : ℚ) ≤ maxGamutChroma chromaLeEighth → chromaLeEighth 0 = true) ∧
      (maxGamutChroma chromaLeEighth + 0.4 / 2 ^ 20 < 0 →
        chromaLeEighth 0 = false)) :=
  ⟨by norm_num [chromaLeEighth], by norm_num [chromaLeEighth],
    maxGamutChroma_correct chromaLeEighth
      (fun c c' hcc h => by
        simp only [chromaLeEighth, decide_eq_true_eq] at h ⊢
        exact le_trans hcc h)
      (by norm_num [chromaLeEighth]) (by norm_num [chromaLeEighth]) 0⟩

/-! ## Spatial binning indices

Sources:

`visualize_multiview.py`, `computeVoxels()` (voxel grid, all axes clamped):

    const sL = 1.0/nB, sC = 0.4/nB, sH = 360.0/nB;
    const kl = Math.min(Math.floor(d.L / sL), nB-1);
    const kc = Math.min(Math.floor(d.C / sC), nB-1);
    const kh = Math.min(Math.floor(d.H / sH), nB-1);

`visualize_tone_map.py`, `binData()` (L and C clamped, hue wrapped):

    const lStep = 1.0 / lDivs;  const cStep = C_MAX / cDivs;
    const hStep = 360 / H_BINS;                        // H_BINS = 24
    if (d.C > C_MAX) continue;                         // C_MAX = 0.35
    const li = Math.min(Math.floor(d.L / lStep), lDivs - 1);
    const ci = Math.min(Math.floor(d.C / cStep), cDivs - 1);
    if (li < 0 || ci < 0) continue;
    const hi = Math.floor(d.H / hStep) % H_BINS;

The data values (L, C, H) entering these functions are decimal-rounded
rationals, so `ℚ` models them exactly. -/

def clampedIndex (n : ℕ) (extent v : ℚ) : ℤ :=
  min ⌊v / (extent / n)⌋ ((n : ℤ) - 1)

def toneHueIndex (H : ℚ) : ℤ := ⌊H / (360 / 24)⌋ % 24

/-- Voxel-grid bin indices of `computeVoxels` (axes L, C, H with extents
1, 0.4, 360 and `nB` bins each, every axis clamped). -/
def voxelIndices (nB : ℕ) (L C H : ℚ) : ℤ × ℤ × ℤ :=
  (clampedIndex nB 1 L, clampedIndex nB 0.4 C, clampedIndex nB 360 H)

/-- Tone-map bin key of `binData`: colors with `C > 0.35` or negative
L/C indices are excluded; the hue index wraps modulo 24 instead of
clamping. -/
def toneBinKey (lDivs cDivs : ℕ) (L C H : ℚ) : Option (ℤ × ℤ × ℤ) :=
  if 0.35 < C then none
  else
    let li := clampedIndex lDivs 1 L
    let ci := clampedIndex cDivs 0.35 C
    if li < 0 ∨ ci < 0 then none else some (li, ci, toneHueIndex H)

/-- Membership of a value `v` in bin `i` of an axis of extent `extent`
divided into `n` equal bins: the half-open interval
`[i*(extent/n), (i+1)*(extent/n))`, closed at `extent` for the last bin.
These intervals are pairwise disjoint and cover `[0, extent]`. -/
def binMem (n : ℕ) (extent : ℚ) (i : ℤ) (v : ℚ) : Prop :=
  0 ≤ i ∧ i ≤ (n : ℤ) - 1 ∧ (extent / n) * i ≤ v ∧
    (if i = (n : ℤ) - 1 then v ≤ extent else v < (extent / n) * (i + 1))

lemma clampedIndex_eq_iff_binMem (n : ℕ) (extent v : ℚ) (i : ℤ)
    (hn : 0 < n) (he : 0 < extent) (h0 : 0 ≤ v) (h1 : v ≤ extent) :
    clampedIndex n extent v = i ↔ binMem n extent i v := by
  have hnQ : (0 : ℚ) < (n : ℚ) := by exact_mod_cast hn
  have hs : (0 : ℚ) < extent / n := div_pos he hnQ
  set s : ℚ := extent / (n : ℚ) with hsdef
  set j : ℤ := ⌊v / s⌋ with hjdef
  have hj0 : 0 ≤ j := Int.floor_nonneg.mpr (div_nonneg h0 hs.le)
  have hjs : (j : ℚ) * s ≤ v := (le_div_iff₀ hs).mp (Int.floor_le _)
  have hjv : v < ((j : ℚ) + 1) * s :=
    (div_lt_iff₀ hs).mp (Int.lt_floor_add_one _)
  have hidx : clampedIndex n extent v = min j ((n : ℤ) - 1) := rfl
  rw [hidx]
  constructor
  · intro hveq
    subst hveq
    refine ⟨le_min hj0 (by omega), min_le_right _ _, ?_, ?_⟩
    · have hcast : ((min j ((n : ℤ) - 1) : ℤ) : ℚ) ≤ (j : ℚ) :=
        Int.cast_le.mpr (min_le_left _ _)
      rw [← hsdef]
      linarith [hjs, mul_le_mul_of_nonneg_left hcast hs.le]
    · by_cases hlast : min j ((n : ℤ) - 1) = (n : ℤ) - 1
      · rw [if_pos hlast]; exact h1
      · rw [if_neg hlast]
        have hmin : min j ((n : ℤ) - 1) = j := by
          rcases min_cases j ((n : ℤ) - 1) with h | h
          · exact h.1
          · exact absurd h.1 hlast
        rw [hmin, ← hsdef]
        linarith [hjv]
  · rintro ⟨hi0, hin, hlow, hhigh⟩
    rw [← hsdef] at hlow hhigh
    by_cases hlast : i = (n : ℤ) - 1
    · subst hlast
      rw [if_pos rfl] at hhigh
      refine min_eq_right ?_
      rw [hjdef, Int.le_floor, le_div_iff₀ hs]
      push_cast at hlow ⊢
      linarith
    · rw [if_neg hlast] at hhigh
      have hfloor : j = i := by
        rw [hjdef, Int.floor_eq_iff]
        refine ⟨?_, ?_⟩
        · rw [le_div_iff₀ hs]
          linarith
        · rw [div_lt_iff₀ hs]
          linarith
      rw [hfloor]
      exact min_eq_left (by omega)

lemma clampedIndex_boundary (n : ℕ) (extent : ℚ) (hn : 0 < n)
    (he : 0 < extent) : clampedIndex n extent extent = (n : ℤ) - 1 := by
  have hnQ : (0 : ℚ) < (n : ℚ) := by exact_mod_cast hn
  have hs : (0 : ℚ) < extent / n := div_pos he hnQ
  unfold clampedIndex
  have : ⌊extent / (extent / n)⌋ = (n : ℤ) := by
    have : extent / (extent / n) = (n : ℚ) := by field_simp
    rw [this]
    exact Int.floor_natCast n
  rw [this]
  exact min_eq_right (by omega)

lemma toneHueIndex_eq_clamped (H : ℚ) (h0 : 0 ≤ H) (h1 : H < 360) :
    toneHueIndex H = clampedIndex 24 360 H := by
  have hs : (0 : ℚ) < (15 : ℚ) := by norm_num
  have hfloor0 : 0 ≤ ⌊H / 15⌋ :=
    Int.floor_nonneg.mpr (div_nonneg h0 (by norm_num))
  have hfloorlt : ⌊H / 15⌋ < 24 := by
    have hdiv : H / 15 < 24 := (div_lt_iff₀ hs).mpr (by linarith)
    exact Int.floor_lt.mpr (by push_cast; linarith)
  unfold toneHueIndex clampedIndex
  rw [show ((360 : ℚ) / 24) = (15 : ℚ) by norm_num]
  rw [show ((360 : ℚ) / ((24 : ℕ) : ℚ)) = (15 : ℚ) by norm_num]
  rw [Int.emod_eq_of_lt hfloor0 hfloorlt]
  exact (min_eq_left (by omega)).symm

lemma toneHueIndex_360 : toneHueIndex 360 = 0 := by
  unfold toneHueIndex
  rw [show ((360 : ℚ) / 24) = (15 : ℚ) by norm_num]
  rw [show ((360 : ℚ) / 15) = (24 : ℚ) by norm_num]
  rw [show ⌊(24 : ℚ)⌋ = 24 from by exact_mod_cast Int.floor_natCast 24]
  decide

/-- C8 (counterexample to the claim as stated): a color record can carry
`H = 360` (the host-side pipeline rounds hue to 2 decimals, and e.g.
RGB (233, 78, 139) has hue ≈ 359.99998, which rounds to 360.00).  At that
boundary value the tone-map hue index wraps to bin 0 instead of clamping
to the last bin `H_BINS - 1 = 23` as the claim requires. -/
theorem toneHueIndex_boundary_not_clamped :
    toneHueIndex 360 = 0 ∧ clampedIndex 24 360 360 = 23 ∧
      toneHueIndex 360 ≠ clampedIndex 24 360 360 := by
  have h1 : toneHueIndex 360 = 0 := toneHueIndex_360
  have h2 : clampedIndex 24 360 360 = 23 := by
    have := clampedIndex_boundary 24 360 (by norm_num) (by norm_num)
    simpa using this
  exact ⟨h1, h2, by rw [h1, h2]; decide⟩

/-- C8 (amended): bin membership is a function of (L, C, H) alone and is
disjoint and exhaustive over the grid — a value `v ∈ [0, extent]` lies in
bin `i` exactly when the (clamped-floor) index equals `i`, the index is
clamped to `n - 1` when the value equals the grid extent, and the
tone-map hue index (floor mod `H_BINS`) agrees with the clamped index
for `H ∈ [0, 360)`; it wraps to 0 (rather than clamping) only at the
boundary value `H = 360`. -/
theorem bin_membership_amended :
    (∀ (n : ℕ) (extent v : ℚ) (i : ℤ), 0 < n → 0 < extent → 0 ≤ v →
      v ≤ extent → (clampedIndex n extent v = i ↔ binMem n extent i v)) ∧
    (∀ (n : ℕ) (extent : ℚ), 0 < n → 0 < extent →
      clampedIndex n extent extent = (n : ℤ) - 1) ∧
    (∀ H : ℚ, 0 ≤ H → H < 360 → toneHueIndex H = clampedIndex 24 360 H) ∧
    toneHueIndex 360 = 0 := by
  refine ⟨?_, ?_, ?_, ?_⟩
  · intro n extent v i hn he h0 h1
    exact clampedIndex_eq_iff_binMem n extent v i hn he h0 h1
  · intro n extent hn he
    exact clampedIndex_boundary n extent hn he
  · intro H h0 h1
    exact toneHueIndex_eq_clamped H h0 h1
  · exact toneHueIndex_360

/-! ## Color extraction: counting and ordering

Source: `extract_colors.py`, `get_colors_from_image`:

    color_counts: Counter = Counter()
    for i, (r, g, b) in enumerate(pixels):
        hex_color = rgb_to_hex(r, g, b)
        color_counts[hex_color] += 1
    ...
    for hex_color, count in color_counts.most_common():
        ...

A Python `Counter` preserves first-insertion order of keys, and
`most_common()` is `sorted(items, key=count, reverse=True)`, a stable
sort by descending count.  The hex key `#RRGGBB` is in bijection with
the 8-bit RGB triple, so the counting map is modelled keyed by the
triple itself: an insertion-ordered association list bumped per pixel,
then stably merge-sorted by descending count. -/

abbrev RGB := ℕ × ℕ × ℕ

def bump : List (RGB × ℕ) → RGB → List (RGB × ℕ)
  | [], p => [(p, 1)]
  | (q, k) :: rest, p =>
    if q = p then (q, k + 1) :: rest else (q, k) :: bump rest p

def countColors (pixels : List RGB) : List (RGB × ℕ) :=
  pixels.foldl bump []

/-- Comparison used by `most_common`: count descending. -/
def countDescLe (a b : RGB × ℕ) : Bool := decide (b.2 ≤ a.2)

def mostCommon (m : List (RGB × ℕ)) : List (RGB × ℕ) :=
  m.mergeSort countDescLe

def getColorsFromPixels (pixels : List RGB) : List (RGB × ℕ) :=
  mostCommon (countColors pixels)

lemma countDescLe_trans (a b c : RGB × ℕ) :
    countDescLe a b → countDescLe b c → countDescLe a c := by
  simp only [countDescLe, decide_eq_true_eq]
  exact fun h1 h2 => le_trans h2 h1

lemma countDescLe_total (a b : RGB × ℕ) :
    countDescLe a b || countDescLe b a := by
  simp only [countDescLe, Bool.or_eq_true, decide_eq_true_eq]
  exact le_total b.2 a.2

/-- C4: extraction output is ordered by count descending; records with
equal counts keep their first-encountered order (any two equal-count
records adjacent-in-order in the counting map stay in that order in the
output, by stability of the sort); and the concrete 2×2 scenario with
three (255,0,0) pixels and one (0,0,255) pixel yields exactly
[((255,0,0), 3), ((0,0,255), 1)].  (The `#RRGGBB` hex field of a record
is determined bijectively by its RGB triple.) -/
theorem extraction_ordering :
    (∀ pixels : List RGB,
      (getColorsFromPixels pixels).Pairwise (fun a b => b.2 ≤ a.2)) ∧
    (∀ (pixels : List RGB) (a b : RGB × ℕ), a.2 = b.2 →
      List.Sublist [a, b] (countColors pixels) →
      List.Sublist [a, b] (getColorsFromPixels pixels)) ∧
    getColorsFromPixels [(255, 0, 0), (255, 0, 0), (255, 0, 0), (0, 0, 255)]
      = [((255, 0, 0), 3), ((0, 0, 255), 1)] := by
  refine ⟨?_, ?_, ?_⟩
  · intro pixels
    have h := List.sorted_mergeSort
      countDescLe_trans countDescLe_total (countColors pixels)
    exact h.imp (fun hab => by
      simpa [countDescLe, decide_eq_true_eq] using hab)
  · intro pixels a b heq hsub
    have hab : countDescLe a b := by
      simp only [countDescLe, decide_eq_true_eq, heq]
      exact le_refl _
    exact List.pair_sublist_mergeSort countDescLe_trans countDescLe_total
      hab hsub
  · have hc : countColors [(255, 0, 0), (255, 0, 0), (255, 0, 0), (0, 0, 255)]
        = [((255, 0, 0), 3), ((0, 0, 255), 1)] := rfl
    show mostCommon _ = _
    rw [hc]
    exact List.mergeSort_of_sorted (by decide)

theorem extraction_ordering_witness :
    ((((255 : ℕ), (0 : ℕ), (0 : ℕ)), (1 : ℕ)).2
        = (((0 : ℕ), (0 : ℕ), (255 : ℕ)), (1 : ℕ)).2) ∧
    List.Sublist [(((255 : ℕ), (0 : ℕ), (0 : ℕ)), (1 : ℕ)),
        (((0 : ℕ), (0 : ℕ), (255 : ℕ)), (1 : ℕ))]
      (getColorsFromPixels [(255, 0, 0), (0, 0, 255)]) :=
  ⟨rfl,
    extraction_ordering.2.1 [(255, 0, 0), (0, 0, 255)]
      ((255, 0, 0), 1) ((0, 0, 255), 1) rfl (List.Sublist.refl _)⟩

lemma bump_count_sum (m : List (RGB × ℕ)) (p : RGB) :
    ((bump m p).map (fun r => r.2)).sum = ((m.map (fun r => r.2)).sum) + 1 := by
  induction m with
  | nil => simp [bump]
  | cons hd tl ih =>
    obtain ⟨q, k⟩ := hd
    by_cases h : q = p
    · simp [bump, h]
      omega
    · simp [bump, h, ih]
      omega

lemma countColors_foldl_sum (pixels : List RGB) :
    ∀ acc : List (RGB × ℕ),
      (((pixels.foldl bump acc)).map (fun r => r.2)).sum
        = ((acc.map (fun r => r.2)).sum) + pixels.length := by
  induction pixels with
  | nil => intro acc; simp
  | cons p tl ih =>
    intro acc
    have h1 : (p :: tl).foldl bump acc = tl.foldl bump (bump acc p) := rfl
    rw [h1, ih (bump acc p), bump_count_sum]
    simp
    omega

/-- C7: the counts of the extracted color records sum to the number of
pixels iterated. -/
theorem extraction_count_conservation (pixels : List RGB) :
    ((getColorsFromPixels pixels).map (fun r => r.2)).sum = pixels.length := by
  have hperm : List.Perm (mostCommon (countColors pixels)) (countColors pixels) :=
    List.mergeSort_perm _ _
  have hsum : ((mostCommon (countColors pixels)).map (fun r => r.2)).sum
      = ((countColors pixels).map (fun r => r.2)).sum :=
    (hperm.map (fun r => r.2)).sum_eq
  show ((mostCommon (countColors pixels)).map (fun r => r.2)).sum = _
  rw [hsum]
  have := countColors_foldl_sum pixels []
  simpa using this

theorem bin_membership_amended_witness :
    ((0 < 12 ∧ (0 : ℚ) < 1 ∧ (0 : ℚ) ≤ 1 / 2 ∧ (1 / 2 : ℚ) ≤ 1) ∧
      (clampedIndex 12 1 (1 / 2) = 6 ↔ binMem 12 1 6 (1 / 2))) ∧
    clampedIndex 24 360 360 = (24 : ℤ) - 1 ∧
    toneHueIndex 350 = clampedIndex 24 360 350 :=
  ⟨⟨⟨by norm_num, by norm_num, by norm_num, by norm_num⟩,
      bin_membership_amended.1 12 1 (1 / 2) 6 (by norm_num) (by norm_num)
        (by norm_num) (by norm_num)⟩,
    bin_membership_amended.2.1 24 360 (by norm_num) (by norm_num),
    bin_membership_amended.2.2.1 350 (by norm_num) (by norm_num)⟩

/-! ## Real-valued color conversions

Source: `color_utils.py` (and the duplicated formulas in the embedded
scripts).  `math.atan2 y x` is modelled as `Complex.arg ⟨x, y⟩`, which
has the same value on every input, including `atan2 0 0 = 0`, and the
same range `(-π, π]`. -/

noncomputable def atan2 (y x : ℝ) : ℝ := Complex.arg ⟨x, y⟩

lemma atan2_mem (y x : ℝ) : -Real.pi < atan2 y x ∧ atan2 y x ≤ Real.pi :=
  Complex.arg_mem_Ioc ⟨x, y⟩

lemma atan2_zero_of_pos (x : ℝ) (hx : 0 < x) : atan2 0 x = 0 := by
  have h : (⟨x, 0⟩ : ℂ) = ((x : ℝ) : ℂ) := Complex.ext (by simp) (by simp)
  unfold atan2
  rw [h]
  exact Complex.arg_ofReal_of_nonneg hx.le

/-- Conversion of an angle in radians to degrees followed by the
normalization `if H_deg < 0: H_deg += 360` shared by
`oklab_to_oklch` (Python) and `computeVoxels` (JS). -/
noncomputable def normDeg (θ : ℝ) : ℝ :=
  let d := θ * 180 / Real.pi
  if d < 0 then d + 360 else d

lemma normDeg_mem (θ : ℝ) (h1 : -Real.pi < θ) (h2 : θ ≤ Real.pi) :
    0 ≤ normDeg θ ∧ normDeg θ < 360 := by
  have hpi : 0 < Real.pi := Real.pi_pos
  have hd1 : -180 < θ * 180 / Real.pi := by
    rw [lt_div_iff₀ hpi]
    nlinarith
  have hd2 : θ * 180 / Real.pi ≤ 180 := by
    rw [div_le_iff₀ hpi]
    nlinarith
  unfold normDeg
  by_cases h : θ * 180 / Real.pi < 0
  · rw [if_pos h]
    constructor <;> linarith
  · rw [if_neg h]
    push_neg at h
    constructor <;> linarith

lemma normDeg_zero : normDeg 0 = 0 := by
  unfold normDeg
  simp

noncomputable def srgb_to_linear (c : ℝ) : ℝ :=
  if c ≤ 0.04045 then c / 12.92 else ((c + 0.055) / 1.055) ^ (2.4 : ℝ)

/-- Signed real cube root, modelling `np.cbrt`. -/
noncomputable def cbrt (x : ℝ) : ℝ :=
  if 0 ≤ x then x ^ ((1 : ℝ) / 3) else -((-x) ^ ((1 : ℝ) / 3))

noncomputable def linear_srgb_to_oklab (r g b : ℝ) : ℝ × ℝ × ℝ :=
  let l := 0.4122214708 * r + 0.5363325363 * g + 0.0514459929 * b
  let m := 0.2119034982 * r + 0.6806995451 * g + 0.1073969566 * b
  let s := 0.0883024619 * r + 0.2817188376 * g + 0.6299787005 * b
  let l' := cbrt l
  let m' := cbrt m
  let s' := cbrt s
  (0.2104542553 * l' + 0.7936177850 * m' - 0.0040720468 * s',
    1.9779984951 * l' - 2.4285922050 * m' + 0.4505937099 * s',
    0.0259040371 * l' + 0.7827717662 * m' - 0.8086757660 * s')

noncomputable def oklab_to_oklch (L a b : ℝ) : ℝ × ℝ × ℝ :=
  (L, Real.sqrt (a * a + b * b), normDeg (atan2 b a))

noncomputable def rgb_to_oklch (r g b : ℕ) : ℝ × ℝ × ℝ :=
  let rl := srgb_to_linear (r / 255)
  let gl := srgb_to_linear (g / 255)
  let bl := srgb_to_linear (b / 255)
  let lab := linear_srgb_to_oklab rl gl bl
  oklab_to_oklch lab.1 lab.2.1 lab.2.2

/-- C6: every OKLCH result has chroma `C ≥ 0` and hue `H ∈ [0, 360)`,
both for `oklab_to_oklch` on arbitrary OKLab inputs and for the composed
`rgb_to_oklch`.  In particular `H = 360` is never produced, so `H = 0`
and `H = 360` are never both produced for the same color. -/
theorem oklch_hue_normalized :
    (∀ L a b : ℝ, 0 ≤ (oklab_to_oklch L a b).2.1 ∧
      0 ≤ (oklab_to_oklch L a b).2.2 ∧ (oklab_to_oklch L a b).2.2 < 360) ∧
    (∀ r g b : ℕ, 0 ≤ (rgb_to_oklch r g b).2.1 ∧
      0 ≤ (rgb_to_oklch r g b).2.2 ∧ (rgb_to_oklch r g b).2.2 < 360) := by
  have key : ∀ L a b : ℝ, 0 ≤ (oklab_to_oklch L a b).2.1 ∧
      0 ≤ (oklab_to_oklch L a b).2.2 ∧ (oklab_to_oklch L a b).2.2 < 360 := by
    intro L a b
    obtain ⟨h1, h2⟩ := atan2_mem b a
    obtain ⟨h3, h4⟩ := normDeg_mem (atan2 b a) h1 h2
    exact ⟨Real.sqrt_nonneg _, h3, h4⟩
  refine ⟨key, ?_⟩
  intro r g b
  exact key _ _ _

/-! ## Voxel hue aggregation (circular mean)

Source: `visualize_multiview.py`, `computeVoxels()`:

    v.sHx += Math.cos(d.H*Math.PI/180)*d.count;
    v.sHy += Math.sin(d.H*Math.PI/180)*d.count;
    ...
    let aH = Math.atan2(v.sHy, v.sHx)*180/Math.PI;
    if (aH < 0) aH += 360;

The contributing colors of a voxel are modelled as a list of
(hue in degrees, count) pairs. -/

noncomputable def voxelHue (l : List (ℝ × ℝ)) : ℝ :=
  let sHx := (l.map (fun p => Real.cos (p.1 * Real.pi / 180) * p.2)).sum
  let sHy := (l.map (fun p => Real.sin (p.1 * Real.pi / 180) * p.2)).sum
  normDeg (atan2 sHy sHx)

/-- Circular mean as worded by the spec: accumulate Σ(count·cos H) and
Σ(count·sin H), then take atan2(Σsin, Σcos), convert to degrees and
normalize into [0, 360). -/
noncomputable def circularMeanSpec (l : List (ℝ × ℝ)) : ℝ :=
  normDeg (atan2 ((l.map (fun p => p.2 * Real.sin (p.1 * Real.pi / 180))).sum)
    ((l.map (fun p => p.2 * Real.cos (p.1 * Real.pi / 180))).sum))

/-- C5: the voxel aggregate hue is the circular (vector-sum) mean of the
contributing hues, it always lies in [0, 360), and a voxel holding two
equal-count colors at H = 359° and H = 1° aggregates to exactly 0° in
exact arithmetic (not 180°). -/
theorem voxelHue_circular_mean :
    (∀ l : List (ℝ × ℝ), voxelHue l = circularMeanSpec l) ∧
    (∀ l : List (ℝ × ℝ), 0 ≤ voxelHue l ∧ voxelHue l < 360) ∧
    voxelHue [(359, 1), (1, 1)] = 0 := by
  refine ⟨?_, ?_, ?_⟩
  · intro l
    have hx : (l.map (fun p => Real.cos (p.1 * Real.pi / 180) * p.2)).sum
        = (l.map (fun p => p.2 * Real.cos (p.1 * Real.pi / 180))).sum := by
      congr 1
      exact List.map_congr_left (fun p _ => mul_comm _ _)
    have hy : (l.map (fun p => Real.sin (p.1 * Real.pi / 180) * p.2)).sum
        = (l.map (fun p => p.2 * Real.sin (p.1 * Real.pi / 180))).sum := by
      congr 1
      exact List.map_congr_left (fun p _ => mul_comm _ _)
    unfold voxelHue circularMeanSpec
    rw [hx, hy]
  · intro l
    unfold voxelHue
    obtain ⟨h1, h2⟩ := atan2_mem _ _
    exact normDeg_mem _ h1 h2
  · unfold voxelHue
    have hangle : (359 : ℝ) * Real.pi / 180 = 2 * Real.pi - Real.pi / 180 := by
      ring
    have hangle1 : (1 : ℝ) * Real.pi / 180 = Real.pi / 180 := by ring
    have hsin : Real.sin ((359 : ℝ) * Real.pi / 180) = -Real.sin (Real.pi / 180) := by
      rw [hangle, Real.sin_two_pi_sub]
    have hcos : Real.cos ((359 : ℝ) * Real.pi / 180) = Real.cos (Real.pi / 180) := by
      rw [hangle, Real.cos_two_pi_sub]
    have hcpos : 0 < Real.cos (Real.pi / 180) := by
      apply Real.cos_pos_of_mem_Ioo
      constructor
      · nlinarith [Real.pi_pos]
      · nlinarith [Real.pi_pos]
    simp only [List.map_cons, List.map_nil, List.sum_cons, List.sum_nil]
    rw [hangle1, hsin, hcos]
    have hy : -Real.sin (Real.pi / 180) * 1 + (Real.sin (Real.pi / 180) * 1 + 0) = 0 := by
      ring
    have hx : Real.cos (Real.pi / 180) * 1 + (Real.cos (Real.pi / 180) * 1 + 0)
        = 2 * Real.cos (Real.pi / 180) := by
      ring
    rw [hy, hx, atan2_zero_of_pos _ (by linarith), normDeg_zero]

/-! ## Voxel weighted standard deviation

Source: `visualize_multiview.py`, `computeVoxels()`:

    const aL = v.sL/v.tot;
    const stdL = Math.sqrt(Math.max(0, v.sL2/v.tot - aL*aL));

(and identically for C).  A voxel's contributing (value, count) pairs
are modelled as a list. -/

noncomputable def weightedStd (l : List (ℝ × ℝ)) : ℝ :=
  let tot := (l.map (fun p => p.2)).sum
  let s1 := (l.map (fun p => p.1 * p.2)).sum
  let s2 := (l.map (fun p => p.1 * p.1 * p.2)).sum
  Real.sqrt (max 0 (s2 / tot - (s1 / tot) * (s1 / tot)))

/-- C9: for every non-empty voxel the reported standard deviation (of L
or of C — the formula is the same) is a well-defined, non-negative real:
the argument of the square root is clamped at 0, so the result is never
a square root of a negative number, and its square is exactly the
clamped variance. -/
theorem weightedStd_nonneg (l : List (ℝ × ℝ))
    (hpos : 0 < (l.map (fun p => p.2)).sum) :
    0 ≤ weightedStd l ∧
    weightedStd l * weightedStd l
      = max 0 ((l.map (fun p => p.1 * p.1 * p.2)).sum
            / (l.map (fun p => p.2)).sum
          - ((l.map (fun p => p.1 * p.2)).sum / (l.map (fun p => p.2)).sum)
            * ((l.map (fun p => p.1 * p.2)).sum / (l.map (fun p => p.2)).sum)) :=
  ⟨Real.sqrt_nonneg _, Real.mul_self_sqrt (le_max_left _ _)⟩

theorem weightedStd_nonneg_witness :
    (0 : ℝ) < ([((1 : ℝ), (2 : ℝ))].map (fun p => p.2)).sum ∧
    0 ≤ weightedStd [((1 : ℝ), (2 : ℝ))] :=
  ⟨by norm_num, (weightedStd_nonneg [((1 : ℝ), (2 : ℝ))] (by norm_num)).1⟩

/-! ## sRGB gamut membership (host-side Python and embedded JS copies)

Sources: `color_utils.py`, `is_in_srgb_gamut(L, C, H, epsilon=1e-6)` and
`visualize_tone_map.py`, embedded JS `isInSrgbGamut(L, C, H)` with the
hard-coded `eps = 0.001`.  Both compute OKLCH → OKLab → linear sRGB with
the same constants and test every channel against `[-eps, 1 + eps]`. -/

noncomputable def oklch_to_oklab (L C H : ℝ) : ℝ × ℝ × ℝ :=
  (L, C * Real.cos (H * Real.pi / 180), C * Real.sin (H * Real.pi / 180))

noncomputable def oklab_to_linear_srgb (L a b : ℝ) : ℝ × ℝ × ℝ :=
  let l' := L + 0.3963377774 * a + 0.2158037573 * b
  let m' := L - 0.1055613458 * a - 0.0638541728 * b
  let s' := L - 0.0894841775 * a - 1.2914855480 * b
  let l := l' * l' * l'
  let m := m' * m' * m'
  let s := s' * s' * s'
  (4.0767416621 * l - 3.3077115913 * m + 0.2309699292 * s,
    -1.2684380046 * l + 2.6097574011 * m - 0.3413193965 * s,
    -0.0041960863 * l - 0.7034186147 * m + 1.7076147010 * s)

/-- Python `is_in_srgb_gamut` with explicit tolerance (the Python default
is `epsilon = 1e-6`). -/
noncomputable def is_in_srgb_gamut (L C H epsilon : ℝ) : Prop :=
  let lab := oklch_to_oklab L C H
  let lin := oklab_to_linear_srgb lab.1 lab.2.1 lab.2.2;
  -epsilon ≤ lin.1 ∧ lin.1 ≤ 1 + epsilon ∧
  -epsilon ≤ lin.2.1 ∧ lin.2.1 ≤ 1 + epsilon ∧
  -epsilon ≤ lin.2.2 ∧ lin.2.2 ≤ 1 + epsilon

/-- Embedded JS `isInSrgbGamut`, a duplicated copy of the same formula
with the hard-coded `eps = 0.001`. -/
noncomputable def isInSrgbGamutJs (L C H : ℝ) : Prop :=
  let a := C * Real.cos (H * Real.pi / 180)
  let b := C * Real.sin (H * Real.pi / 180)
  let l' := L + 0.3963377774 * a + 0.2158037573 * b
  let m' := L - 0.1055613458 * a - 0.0638541728 * b
  let s' := L - 0.0894841775 * a - 1.2914855480 * b
  let l := l' * l' * l'
  let m := m' * m' * m'
  let s := s' * s' * s'
  let rLin := 4.0767416621 * l - 3.3077115913 * m + 0.2309699292 * s
  let gLin := -1.2684380046 * l + 2.6097574011 * m - 0.3413193965 * s
  let bLin := -0.0041960863 * l - 0.7034186147 * m + 1.7076147010 * s;
  -0.001 ≤ rLin ∧ rLin ≤ 1 + 0.001 ∧
  -0.001 ≤ gLin ∧ gLin ≤ 1 + 0.001 ∧
  -0.001 ≤ bLin ∧ bLin ≤ 1 + 0.001

/-- C10 (counterexample to the claim as stated): at
(L, C, H) = (0.98, 0.0105, 0) the red linear channel is ≈ 1.0002076,
inside the JS tolerance 0.001 but outside the Python default tolerance
1e-6, so the two gamut tests return different booleans. -/
theorem gamut_copies_differ_at_default_eps :
    isInSrgbGamutJs 0.98 0.0105 0 ∧
    ¬ is_in_srgb_gamut 0.98 0.0105 0 (1 / 1000000) := by
  have hc : Real.cos ((0 : ℝ) * Real.pi / 180) = 1 := by
    rw [show (0 : ℝ) * Real.pi / 180 = 0 by ring, Real.cos_zero]
  have hs : Real.sin ((0 : ℝ) * Real.pi / 180) = 0 := by
    rw [show (0 : ℝ) * Real.pi / 180 = 0 by ring, Real.sin_zero]
  constructor
  · unfold isInSrgbGamutJs
    rw [hc, hs]
    norm_num
  · unfold is_in_srgb_gamut oklch_to_oklab oklab_to_linear_srgb
    rw [hc, hs]
    norm_num

/-- C10 (amended): the two duplicated gamut tests agree on every OKLCH
triple when given the same tolerance — the Python copy at
`epsilon = 0.001` computes exactly the embedded JS copy.  (With the
Python default `epsilon = 1e-6` the two differ; see the counterexample.) -/
theorem gamut_copies_equivalent_at_same_eps (L C H : ℝ) :
    is_in_srgb_gamut L C H 0.001 ↔ isInSrgbGamutJs L C H := Iff.rfl

/-! ## Downsampling policy

Source: `extract_colors.py`, `get_colors_from_image`:

    TARGET_PIXELS = 500000
    if original_total > TARGET_PIXELS:
        scale = (TARGET_PIXELS / original_total) ** 0.5
        new_w = max(1, round(original_w * scale))
        new_h = max(1, round(original_h * scale))

Python `round` rounds half to even; `pyRound` models it exactly. -/

def TARGET_PIXELS : ℕ := 500000

noncomputable def pyRound (x : ℝ) : ℤ :=
  if Int.fract x = 1 / 2 then (if 2 ∣ ⌊x⌋ then ⌊x⌋ else ⌊x⌋ + 1)
  else round x

noncomputable def resampledDims (w h : ℕ) : ℤ × ℤ :=
  if TARGET_PIXELS < w * h then
    (max 1 (pyRound (w * Real.sqrt (TARGET_PIXELS / (w * h : ℝ)))),
      max 1 (pyRound (h * Real.sqrt (TARGET_PIXELS / (w * h : ℝ)))))
  else ((w : ℤ), (h : ℤ))

lemma pyRound_eq_of_near (x : ℝ) (c : ℤ) (h : |x - c| < 1 / 2) :
    pyRound x = c := by
  have h1 : (c : ℝ) - 1 / 2 < x := by
    have := abs_lt.mp h
    linarith [this.1]
  have h2 : x < (c : ℝ) + 1 / 2 := by
    have := abs_lt.mp h
    linarith [this.2]
  have hfrac : Int.fract x ≠ 1 / 2 := by
    intro heq
    have hx : x = (⌊x⌋ : ℝ) + 1 / 2 := by
      have := Int.fract_add_floor x
      rw [heq] at this
      linarith
    have hfl : (⌊x⌋ : ℝ) < c := by linarith
    have hfl2 : (c : ℝ) - 1 < (⌊x⌋ : ℝ) := by linarith
    have hi1 : ⌊x⌋ < c := by exact_mod_cast hfl
    have hi2 : c - 1 < ⌊x⌋ := by exact_mod_cast hfl2
    omega
  unfold pyRound
  rw [if_neg hfrac, round_eq, Int.floor_eq_iff]
  refine ⟨by linarith, ?_⟩
  push_cast
  linarith

/-- C3: when a `w × h` image exceeds the 500,000-pixel budget, both
resampled dimensions are at least 1 (downsampling never fails); images
at or under the budget are untouched; and a 2000×2000 input resamples
to exactly 707×707, with 707·707 = 499849 ≤ 500,000. -/
theorem resample_budget :
    (∀ w h : ℕ, TARGET_PIXELS < w * h →
      1 ≤ (resampledDims w h).1 ∧ 1 ≤ (resampledDims w h).2) ∧
    resampledDims 2000 2000 = (707, 707) ∧
    707 * 707 ≤ TARGET_PIXELS ∧
    (∀ w h : ℕ, w * h ≤ TARGET_PIXELS →
      resampledDims w h = ((w : ℤ), (h : ℤ))) := by
  refine ⟨?_, ?_, ?_, ?_⟩
  · intro w h hover
    unfold resampledDims
    rw [if_pos hover]
    exact ⟨le_max_left _ _, le_max_left _ _⟩
  · unfold resampledDims
    rw [if_pos (by norm_num [TARGET_PIXELS])]
    have harg : (TARGET_PIXELS : ℝ) / ((2000 : ℕ) * (2000 : ℕ) : ℝ)
        = 1 / 8 := by
      norm_num [TARGET_PIXELS]
    have hsq : Real.sqrt (1 / 8) ^ 2 = 1 / 8 :=
      Real.sq_sqrt (by norm_num)
    have hnn : 0 ≤ Real.sqrt (1 / 8) := Real.sqrt_nonneg _
    have hlo : (0.353525 : ℝ) ≤ Real.sqrt (1 / 8) := by nlinarith
    have hhi : Real.sqrt (1 / 8) ≤ (0.35365 : ℝ) := by nlinarith
    have hround : pyRound ((2000 : ℕ) * Real.sqrt (1 / 8)) = 707 := by
      apply pyRound_eq_of_near
      rw [abs_lt]
      constructor
      · push_cast
        nlinarith
      · push_cast
        nlinarith
    rw [harg, hround]
    norm_num
  · norm_num [TARGET_PIXELS]
  · intro w h hunder
    unfold resampledDims
    rw [if_neg (by omega)]

theorem resample_budget_witness :
    TARGET_PIXELS < 2000 * 2000 ∧ 300 * 300 ≤ TARGET_PIXELS ∧
    (1 ≤ (resampledDims 2000 2000).1 ∧ 1 ≤ (resampledDims 2000 2000).2) ∧
    resampledDims 300 300 = ((300 : ℤ), (300 : ℤ)) :=
  ⟨by norm_num [TARGET_PIXELS], by norm_num [TARGET_PIXELS],
    resample_budget.1 2000 2000 (by norm_num [TARGET_PIXELS]),
    resample_budget.2.2.2 300 300 (by norm_num [TARGET_PIXELS])⟩

/-! ## Round trip RGB → OKLCH → RGB

Source: `color_utils.py`, `oklch_to_rgb`:

    r = round(max(0, min(1, linear_to_srgb(r_lin))) * 255)

composed after `oklch_to_oklab` and `oklab_to_linear_srgb`. -/

noncomputable def linear_to_srgb (c : ℝ) : ℝ :=
  if c ≤ 0.0031308 then 12.92 * c else 1.055 * c ^ ((1 : ℝ) / 2.4) - 0.055

noncomputable def oklch_to_rgb (L C H : ℝ) : ℤ × ℤ × ℤ :=
  let lab := oklch_to_oklab L C H
  let lin := oklab_to_linear_srgb lab.1 lab.2.1 lab.2.2
  (pyRound (max 0 (min 1 (linear_to_srgb lin.1)) * 255),
    pyRound (max 0 (min 1 (linear_to_srgb lin.2.1)) * 255),
    pyRound (max 0 (min 1 (linear_to_srgb lin.2.2)) * 255))

lemma sqrt_mul_cos_atan2 (a b : ℝ) :
    Real.sqrt (a * a + b * b) * Real.cos (atan2 b a) = a := by
  by_cases hz : (⟨a, b⟩ : ℂ) = 0
  · have ha : a = 0 := by
      have := congrArg Complex.re hz
      simpa using this
    have hb : b = 0 := by
      have := congrArg Complex.im hz
      simpa using this
    simp [ha, hb]
  · have habs : Real.sqrt (a * a + b * b) = Complex.abs ⟨a, b⟩ := by
      rw [Complex.abs_apply, Complex.normSq_mk]
    have hne : Complex.abs ⟨a, b⟩ ≠ 0 := Complex.abs.ne_zero hz
    rw [habs]
    unfold atan2
    rw [Complex.cos_arg hz]
    have hre : (⟨a, b⟩ : ℂ).re = a := rfl
    rw [hre]
    field_simp

lemma sqrt_mul_sin_atan2 (a b : ℝ) :
    Real.sqrt (a * a + b * b) * Real.sin (atan2 b a) = b := by
  by_cases hz : (⟨a, b⟩ : ℂ) = 0
  · have ha : a = 0 := by
      have := congrArg Complex.re hz
      simpa using this
    have hb : b = 0 := by
      have := congrArg Complex.im hz
      simpa using this
    simp [ha, hb]
  · have habs : Real.sqrt (a * a + b * b) = Complex.abs ⟨a, b⟩ := by
      rw [Complex.abs_apply, Complex.normSq_mk]
    have hne : Complex.abs ⟨a, b⟩ ≠ 0 := Complex.abs.ne_zero hz
    rw [habs]
    unfold atan2
    rw [Complex.sin_arg]
    have him : (⟨a, b⟩ : ℂ).im = b := rfl
    rw [him]
    field_simp

lemma cos_normDeg_rad (θ : ℝ) :
    Real.cos (normDeg θ * Real.pi / 180) = Real.cos θ := by
  have hpi : Real.pi ≠ 0 := Real.pi_ne_zero
  unfold normDeg
  by_cases h : θ * 180 / Real.pi < 0
  · rw [if_pos h]
    have harg : (θ * 180 / Real.pi + 360) * Real.pi / 180 = θ + 2 * Real.pi := by
      field_simp
      ring
    rw [harg, Real.cos_add_two_pi]
  · rw [if_neg h]
    have harg : θ * 180 / Real.pi * Real.pi / 180 = θ := by
      field_simp
    rw [harg]

lemma sin_normDeg_rad (θ : ℝ) :
    Real.sin (normDeg θ * Real.pi / 180) = Real.sin θ := by
  have hpi : Real.pi ≠ 0 := Real.pi_ne_zero
  unfold normDeg
  by_cases h : θ * 180 / Real.pi < 0
  · rw [if_pos h]
    have harg : (θ * 180 / Real.pi + 360) * Real.pi / 180 = θ + 2 * Real.pi := by
      field_simp
      ring
    rw [harg, Real.sin_add_two_pi]
  · rw [if_neg h]
    have harg : θ * 180 / Real.pi * Real.pi / 180 = θ := by
      field_simp
    rw [harg]

/-- The polar step cancels exactly: OKLab → OKLCH → OKLab is the
identity in exact arithmetic. -/
lemma oklch_oklab_roundtrip (L a b : ℝ) :
    oklch_to_oklab (oklab_to_oklch L a b).1 (oklab_to_oklch L a b).2.1
      (oklab_to_oklch L a b).2.2 = (L, a, b) := by
  unfold oklch_to_oklab oklab_to_oklch
  simp only
  refine Prod.ext rfl (Prod.ext ?_ ?_)
  · show Real.sqrt (a * a + b * b) * Real.cos (normDeg (atan2 b a) * Real.pi / 180) = a
    rw [cos_normDeg_rad]
    exact sqrt_mul_cos_atan2 a b
  · show Real.sqrt (a * a + b * b) * Real.sin (normDeg (atan2 b a) * Real.pi / 180) = b
    rw [sin_normDeg_rad]
    exact sqrt_mul_sin_atan2 a b

lemma le_rpow_inv_natCast_of_pow_le (q x : ℝ) (n : ℕ) (hn : n ≠ 0)
    (hq : 0 ≤ q) (h : q ^ n ≤ x) : q ≤ x ^ ((n : ℝ))⁻¹ := by
  have h1 : (q ^ n : ℝ) ^ ((n : ℝ))⁻¹ ≤ x ^ ((n : ℝ))⁻¹ :=
    Real.rpow_le_rpow (pow_nonneg hq n) h (by positivity)
  rwa [Real.pow_rpow_inv_natCast hq hn] at h1

lemma srgb_to_linear_mem (c : ℝ) (h0 : 0 ≤ c) (h1 : c ≤ 1) :
    0 ≤ srgb_to_linear c ∧ srgb_to_linear c ≤ 1 := by
  unfold srgb_to_linear
  by_cases h : c ≤ 0.04045
  · rw [if_pos h]
    constructor
    · positivity
    · rw [div_le_one (by norm_num : (0 : ℝ) < 12.92)]
      linarith
  · rw [if_neg h]
    have hb0 : (0 : ℝ) ≤ (c + 0.055) / 1.055 := by positivity
    have hb1 : (c + 0.055) / 1.055 ≤ 1 := by
      rw [div_le_one (by norm_num)]
      linarith
    exact ⟨Real.rpow_nonneg hb0 _, Real.rpow_le_one hb0 hb1 (by norm_num)⟩

/-- On the integer 8-bit grid, gamma encode exactly inverts gamma
decode: the seam-mismatch window `(0.040449936, 0.04045]` of the sRGB
transfer pair contains no value of the form `c / 255`. -/
lemma gamma_decode_encode (c : ℕ) (hc : c ≤ 255) :
    linear_to_srgb (srgb_to_linear ((c : ℝ) / 255)) = (c : ℝ) / 255 := by
  by_cases h10 : c ≤ 10
  · have hcr : (c : ℝ) ≤ 10 := by exact_mod_cast h10
    have hu : (c : ℝ) / 255 ≤ 0.04045 := by linarith
    have hc0 : (0 : ℝ) ≤ (c : ℝ) := by positivity
    unfold srgb_to_linear
    rw [if_pos hu]
    unfold linear_to_srgb
    have hlin : (c : ℝ) / 255 / 12.92 ≤ 0.0031308 := by
      rw [div_le_iff₀ (by norm_num : (0 : ℝ) < 12.92),
        div_le_iff₀ (by norm_num : (0 : ℝ) < 255)]
      linarith
    rw [if_pos hlin]
    ring
  · push_neg at h10
    have hc11 : (11 : ℝ) ≤ (c : ℝ) := by exact_mod_cast h10
    have hu : ¬ ((c : ℝ) / 255 ≤ 0.04045) := by
      push_neg
      linarith
    unfold srgb_to_linear
    rw [if_neg hu]
    set B : ℝ := ((c : ℝ) / 255 + 0.055) / 1.055 with hBdef
    have hB0 : (0.093 : ℝ) ≤ B := by
      rw [hBdef, le_div_iff₀ (by norm_num : (0:ℝ) < 1.055)]
      linarith
    have hBnn : (0 : ℝ) ≤ B := by linarith
    have hth : (0.0031308 : ℝ) < B ^ (2.4 : ℝ) := by
      have h1 : ((0.0031308 : ℝ) ^ (5 : ℕ)) < ((0.093 : ℝ) ^ (12 : ℕ)) := by
        norm_num
      have h2 : (0.0031308 : ℝ)
          = ((0.0031308 : ℝ) ^ (5 : ℕ)) ^ ((5 : ℝ))⁻¹ :=
        (Real.pow_rpow_inv_natCast (by norm_num) (by norm_num)).symm
      have h3 : ((0.0031308 : ℝ) ^ (5 : ℕ)) ^ ((5 : ℝ))⁻¹
          < ((0.093 : ℝ) ^ (12 : ℕ)) ^ ((5 : ℝ))⁻¹ :=
        Real.rpow_lt_rpow (by positivity) h1 (by norm_num)
      have h4 : ((0.093 : ℝ) ^ (12 : ℕ)) ^ ((5 : ℝ))⁻¹
          ≤ (B ^ (12 : ℕ)) ^ ((5 : ℝ))⁻¹ :=
        Real.rpow_le_rpow (by positivity)
          (pow_le_pow_left (by norm_num) hB0 12) (by norm_num)
      have h5 : (B ^ (12 : ℕ)) ^ ((5 : ℝ))⁻¹ = B ^ (2.4 : ℝ) := by
        rw [← Real.rpow_natCast_mul hBnn 12 ((5 : ℝ))⁻¹]
        norm_num
      rw [h2]
      rw [h5] at h4
      exact lt_of_lt_of_le h3 h4
    unfold linear_to_srgb
    rw [if_neg (not_le.mpr hth)]
    have hinv : (B ^ (2.4 : ℝ)) ^ ((1 : ℝ) / 2.4) = B := by
      rw [← Real.rpow_mul hBnn]
      norm_num
    rw [hinv, hBdef]
    field_simp
    ring

/-- Lipschitz-type bound for the gamma-power branch, from Bernoulli's
inequality and concavity: for `0.0031308 ≤ a ≤ b`,
`b^(1/2.4) - a^(1/2.4) ≤ (5/12)·29·(b-a)`. -/
lemma rpow_gamma_diff_le (a b : ℝ) (ha : (0.0031308 : ℝ) ≤ a) (hab : a ≤ b) :
    b ^ ((1 : ℝ) / 2.4) - a ^ ((1 : ℝ) / 2.4) ≤ 145 / 12 * (b - a) := by
  have ha0 : (0 : ℝ) < a := by linarith
  have hb0 : (0 : ℝ) < b := by linarith
  have hs1 : (-1 : ℝ) ≤ (b - a) / a := by
    have : (0 : ℝ) ≤ (b - a) / a := div_nonneg (by linarith) ha0.le
    linarith
  have hbern := rpow_one_add_le_one_add_mul_self hs1
    (by norm_num : (0 : ℝ) ≤ (1 : ℝ) / 2.4)
    (by norm_num : ((1 : ℝ) / 2.4) ≤ 1)
  have h1s : (1 : ℝ) + (b - a) / a = b / a := by
    field_simp
  rw [h1s, Real.div_rpow hb0.le ha0.le] at hbern
  -- hbern : b^α / a^α ≤ 1 + α * ((b - a) / a)
  have hapow : (0 : ℝ) < a ^ ((1 : ℝ) / 2.4) := Real.rpow_pos_of_pos ha0 _
  have hmul := mul_le_mul_of_nonneg_left hbern hapow.le
  rw [mul_div_cancel₀ _ (ne_of_gt hapow)] at hmul
  -- hmul : b^α ≤ a^α * (1 + α * ((b - a) / a))
  have hK : a ^ ((1 : ℝ) / 2.4) / a ≤ 29 := by
    have hexp : a ^ ((1 : ℝ) / 2.4) / a = a ^ ((1 : ℝ) / 2.4 - 1) :=
      (Real.rpow_sub_one (ne_of_gt ha0) _).symm
    have hneg : a ^ ((1 : ℝ) / 2.4 - 1) = (a ^ ((7 : ℝ) / 12))⁻¹ := by
      rw [show ((1 : ℝ) / 2.4 - 1) = -((7 : ℝ) / 12) by norm_num,
        Real.rpow_neg ha0.le]
    have ht : (1 / 29 : ℝ) ≤ (0.0031308 : ℝ) ^ ((7 : ℝ) / 12) := by
      have h7 : (0.0031308 : ℝ) ^ ((7 : ℝ) / 12)
          = ((0.0031308 : ℝ) ^ (7 : ℕ)) ^ ((12 : ℝ))⁻¹ := by
        rw [← Real.rpow_natCast_mul (by norm_num)]
        norm_num
      rw [h7]
      exact le_rpow_inv_natCast_of_pow_le _ _ 12 (by norm_num) (by norm_num)
        (by norm_num)
    have hmono : (0.0031308 : ℝ) ^ ((7 : ℝ) / 12) ≤ a ^ ((7 : ℝ) / 12) :=
      Real.rpow_le_rpow (by norm_num) ha (by norm_num)
    have hpos7 : (0 : ℝ) < a ^ ((7 : ℝ) / 12) := Real.rpow_pos_of_pos ha0 _
    have hinv : (a ^ ((7 : ℝ) / 12))⁻¹ ≤ (1 / 29 : ℝ)⁻¹ := by
      apply inv_le_inv_of_le (by norm_num)
      linarith
    rw [hexp, hneg]
    calc (a ^ ((7 : ℝ) / 12))⁻¹ ≤ (1 / 29 : ℝ)⁻¹ := hinv
      _ = 29 := by norm_num
  -- combine: b^α - a^α ≤ α * (a^α / a) * (b - a) ≤ (5/12)*29*(b-a)
  have hfin : b ^ ((1 : ℝ) / 2.4) - a ^ ((1 : ℝ) / 2.4)
      ≤ ((1 : ℝ) / 2.4) * (a ^ ((1 : ℝ) / 2.4) / a) * (b - a) := by
    have hexpand : a ^ ((1 : ℝ) / 2.4) * (1 + (1 : ℝ) / 2.4 * ((b - a) / a))
        = a ^ ((1 : ℝ) / 2.4)
          + ((1 : ℝ) / 2.4) * (a ^ ((1 : ℝ) / 2.4) / a) * (b - a) := by
      field_simp
      ring
    rw [hexpand] at hmul
    linarith
  have hKnn : (0 : ℝ) ≤ a ^ ((1 : ℝ) / 2.4) / a := by positivity
  have hba : (0 : ℝ) ≤ b - a := by linarith
  calc b ^ ((1 : ℝ) / 2.4) - a ^ ((1 : ℝ) / 2.4)
      ≤ ((1 : ℝ) / 2.4) * (a ^ ((1 : ℝ) / 2.4) / a) * (b - a) := hfin
    _ ≤ ((1 : ℝ) / 2.4) * 29 * (b - a) := by nlinarith
    _ = 145 / 12 * (b - a) := by norm_num

lemma rpow_inv_natCast_le_of_pow_ge (q x : ℝ) (n : ℕ) (hn : n ≠ 0)
    (hq : 0 ≤ q) (hx : 0 ≤ x) (h : x ≤ q ^ n) : x ^ ((n : ℝ))⁻¹ ≤ q := by
  have h1 : x ^ ((n : ℝ))⁻¹ ≤ (q ^ n : ℝ) ^ ((n : ℝ))⁻¹ :=
    Real.rpow_le_rpow hx h (by positivity)
  rwa [Real.pow_rpow_inv_natCast hq hn] at h1

lemma cbrt_mem_unit (x : ℝ) (h0 : 0 ≤ x) (h1 : x ≤ 1) :
    0 ≤ cbrt x ∧ cbrt x ≤ 1 ∧ cbrt x * cbrt x * cbrt x = x := by
  unfold cbrt
  rw [if_pos h0]
  refine ⟨Real.rpow_nonneg h0 _, Real.rpow_le_one h0 h1 (by norm_num), ?_⟩
  have hcube : x ^ ((1 : ℝ) / 3) * x ^ ((1 : ℝ) / 3) * x ^ ((1 : ℝ) / 3)
      = (x ^ ((1 : ℝ) / 3)) ^ (3 : ℕ) := by ring
  rw [hcube, show ((1 : ℝ) / 3) = ((3 : ℕ) : ℝ)⁻¹ by norm_num]
  exact Real.rpow_inv_natCast_pow h0 (by norm_num)

lemma cube_diff_bound (x y : ℝ) (hy0 : 0 ≤ y) (hy1 : y ≤ 1)
    (hd : |x - y| ≤ 8 / 10 ^ 8) :
    |x * x * x - y * y * y| ≤ 56 / 10 ^ 8 := by
  obtain ⟨hd1, hd2⟩ := abs_le.mp hd
  have ha2 : (x - y) * (x - y) ≤ (8 / 10 ^ 8) * (8 / 10 ^ 8) := by
    nlinarith
  have ha3u : (x - y) * (x - y) * (x - y)
      ≤ (8 / 10 ^ 8) * (8 / 10 ^ 8) * (8 / 10 ^ 8) := by
    nlinarith [sq_nonneg (x - y)]
  have ha3l : -((8 / 10 ^ 8) * (8 / 10 ^ 8) * (8 / 10 ^ 8))
      ≤ (x - y) * (x - y) * (x - y) := by
    nlinarith [sq_nonneg (x - y)]
  have hya2u : 3 * y * ((x - y) * (x - y)) ≤ 3 * ((8 / 10 ^ 8) * (8 / 10 ^ 8)) := by
    nlinarith [sq_nonneg (x - y)]
  have hya2l : 0 ≤ 3 * y * ((x - y) * (x - y)) := by
    have := mul_self_nonneg (x - y)
    nlinarith
  have hy2 : y * y ≤ 1 := by nlinarith
  have hy2n : 0 ≤ y * y := by positivity
  have hyau : 3 * (y * y) * (x - y) ≤ 3 * (8 / 10 ^ 8) := by nlinarith
  have hyal : -(3 * (8 / 10 ^ 8)) ≤ 3 * (y * y) * (x - y) := by nlinarith
  have hid : x * x * x - y * y * y
      = (x - y) * (x - y) * (x - y) + 3 * y * ((x - y) * (x - y))
        + 3 * (y * y) * (x - y) := by ring
  rw [abs_le, hid]
  constructor <;> linarith

lemma clamp_diff_le (w u : ℝ) (h0 : 0 ≤ u) (h1 : u ≤ 1) :
    |max 0 (min 1 w) - u| ≤ |w - u| := by
  rcases le_total w 0 with hw | hw
  · have hmin : min 1 w = w := min_eq_right (by linarith)
    have hmax : max 0 w = 0 := max_eq_left hw
    rw [hmin, hmax, abs_of_nonpos (by linarith), abs_of_nonpos (by linarith)]
    linarith
  · rcases le_total 1 w with hw1 | hw1
    · have hmin : min 1 w = 1 := min_eq_left hw1
      rw [hmin, max_eq_right (by norm_num : (0 : ℝ) ≤ 1),
        abs_of_nonneg (by linarith), abs_of_nonneg (by linarith)]
      linarith
    · have hmin : min 1 w = w := min_eq_right hw1
      rw [hmin, max_eq_right hw]

lemma seam_bounds :
    (0.090473845 : ℝ) ≤ (0.0031308 : ℝ) ^ ((1 : ℝ) / 2.4) ∧
    (0.0031308 : ℝ) ^ ((1 : ℝ) / 2.4) ≤ 0.090473846 := by
  have hrw : (0.0031308 : ℝ) ^ ((1 : ℝ) / 2.4)
      = ((0.0031308 : ℝ) ^ (5 : ℕ)) ^ ((12 : ℝ))⁻¹ := by
    rw [← Real.rpow_natCast_mul (by norm_num : (0 : ℝ) ≤ 0.0031308) 5
      ((12 : ℝ))⁻¹]
    norm_num
  constructor
  · rw [hrw]
    exact le_rpow_inv_natCast_of_pow_le _ _ 12 (by norm_num) (by norm_num)
      (by norm_num)
  · rw [hrw]
    exact rpow_inv_natCast_le_of_pow_ge _ _ 12 (by norm_num) (by norm_num)
      (by positivity) (by norm_num)

lemma gamma_diff_ordered (x y : ℝ) (hxy : x ≤ y) :
    linear_to_srgb y - linear_to_srgb x ≤ 13 * (y - x) + 1 / 10 ^ 7 ∧
    -(1 / 10 ^ 7) ≤ linear_to_srgb y - linear_to_srgb x := by
  obtain ⟨hs1, hs2⟩ := seam_bounds
  unfold linear_to_srgb
  by_cases hy : y ≤ 0.0031308
  · rw [if_pos hy, if_pos (le_trans hxy hy)]
    constructor <;> linarith
  · push_neg at hy
    rw [if_neg (not_le.mpr hy)]
    by_cases hx : x ≤ 0.0031308
    · rw [if_pos hx]
      have hyt : (0.0031308 : ℝ) ^ ((1 : ℝ) / 2.4) ≤ y ^ ((1 : ℝ) / 2.4) :=
        Real.rpow_le_rpow (by norm_num) hy.le (by norm_num)
      have hlip := rpow_gamma_diff_le 0.0031308 y (le_refl _) hy.le
      constructor
      · linarith
      · linarith
    · push_neg at hx
      rw [if_neg (not_le.mpr hx)]
      have hlip := rpow_gamma_diff_le x y hx.le hxy
      have hmono : x ^ ((1 : ℝ) / 2.4) ≤ y ^ ((1 : ℝ) / 2.4) :=
        Real.rpow_le_rpow (by linarith) hxy (by norm_num)
      constructor
      · linarith
      · linarith

lemma gamma_diff_bound (x y η : ℝ) (hd : |y - x| ≤ η) :
    |linear_to_srgb y - linear_to_srgb x| ≤ 13 * η + 1 / 10 ^ 7 := by
  have hη : 0 ≤ η := le_trans (abs_nonneg _) hd
  rcases le_total x y with h | h
  · obtain ⟨h1, h2⟩ := gamma_diff_ordered x y h
    obtain ⟨hd1, hd2⟩ := abs_le.mp hd
    rw [abs_le]
    constructor <;> linarith
  · obtain ⟨h1, h2⟩ := gamma_diff_ordered y x h
    obtain ⟨hd1, hd2⟩ := abs_le.mp hd
    rw [abs_le]
    constructor <;> linarith

set_option maxHeartbeats 2000000 in
/-- Interval bound for the OKLab → linear sRGB stage applied to the
(exactly computed) OKLab coordinates of a linear RGB triple in [0,1]³:
each recovered linear channel is within 5·10⁻⁶ of the original.  The
matrices of `linear_srgb_to_oklab` and `oklab_to_linear_srgb` are only
approximate inverses (their product deviates from the identity by about
8·10⁻⁸ per row), and cubing triples that deviation. -/
lemma oklab_roundtrip_channel_bound (rl gl bl v1 v2 v3 L0 a0 b0 : ℝ)
    (hv1 : 0 ≤ v1) (hv11 : v1 ≤ 1) (hv2 : 0 ≤ v2) (hv21 : v2 ≤ 1)
    (hv3 : 0 ≤ v3) (hv31 : v3 ≤ 1)
    (hrl : 0 ≤ rl) (hrl1 : rl ≤ 1) (hgl : 0 ≤ gl) (hgl1 : gl ≤ 1)
    (hbl : 0 ≤ bl) (hbl1 : bl ≤ 1)
    (hc1 : v1 * v1 * v1
      = 0.4122214708 * rl + 0.5363325363 * gl + 0.0514459929 * bl)
    (hc2 : v2 * v2 * v2
      = 0.2119034982 * rl + 0.6806995451 * gl + 0.1073969566 * bl)
    (hc3 : v3 * v3 * v3
      = 0.0883024619 * rl + 0.2817188376 * gl + 0.6299787005 * bl)
    (hL0 : L0 = 0.2104542553 * v1 + 0.7936177850 * v2 - 0.0040720468 * v3)
    (ha0 : a0 = 1.9779984951 * v1 - 2.4285922050 * v2 + 0.4505937099 * v3)
    (hb0 : b0 = 0.0259040371 * v1 + 0.7827717662 * v2 - 0.8086757660 * v3) :
    |(oklab_to_linear_srgb L0 a0 b0).1 - rl| ≤ 5 / 10 ^ 6 ∧
    |(oklab_to_linear_srgb L0 a0 b0).2.1 - gl| ≤ 5 / 10 ^ 6 ∧
    |(oklab_to_linear_srgb L0 a0 b0).2.2 - bl| ≤ 5 / 10 ^ 6 := by
  set y1 : ℝ := L0 + 0.3963377774 * a0 + 0.2158037573 * b0 with hy1
  set y2 : ℝ := L0 - 0.1055613458 * a0 - 0.0638541728 * b0 with hy2
  set y3 : ℝ := L0 - 0.0894841775 * a0 - 1.2914855480 * b0 with hy3
  have hproj1 : (oklab_to_linear_srgb L0 a0 b0).1
      = 4.0767416621 * (y1 * y1 * y1) - 3.3077115913 * (y2 * y2 * y2)
        + 0.2309699292 * (y3 * y3 * y3) := rfl
  have hproj2 : (oklab_to_linear_srgb L0 a0 b0).2.1
      = -1.2684380046 * (y1 * y1 * y1) + 2.6097574011 * (y2 * y2 * y2)
        - 0.3413193965 * (y3 * y3 * y3) := rfl
  have hproj3 : (oklab_to_linear_srgb L0 a0 b0).2.2
      = -0.0041960863 * (y1 * y1 * y1) - 0.7034186147 * (y2 * y2 * y2)
        + 1.7076147010 * (y3 * y3 * y3) := rfl
  have hd1 : |y1 - v1| ≤ 8 / 10 ^ 8 := by
    rw [hy1, hL0, ha0, hb0, abs_le]
    constructor <;> linarith
  have hd2 : |y2 - v2| ≤ 8 / 10 ^ 8 := by
    rw [hy2, hL0, ha0, hb0, abs_le]
    constructor <;> linarith
  have hd3 : |y3 - v3| ≤ 8 / 10 ^ 8 := by
    rw [hy3, hL0, ha0, hb0, abs_le]
    constructor <;> linarith
  have hq1 := cube_diff_bound y1 v1 hv1 hv11 hd1
  have hq2 := cube_diff_bound y2 v2 hv2 hv21 hd2
  have hq3 := cube_diff_bound y3 v3 hv3 hv31 hd3
  obtain ⟨hq1a, hq1b⟩ := abs_le.mp hq1
  obtain ⟨hq2a, hq2b⟩ := abs_le.mp hq2
  obtain ⟨hq3a, hq3b⟩ := abs_le.mp hq3
  have hoff1 : |4.0767416621 * (v1 * v1 * v1) - 3.3077115913 * (v2 * v2 * v2)
      + 0.2309699292 * (v3 * v3 * v3) - rl| ≤ 1 / 10 ^ 9 := by
    rw [hc1, hc2, hc3, abs_le]
    constructor <;> linarith
  have hoff2 : |(-1.2684380046) * (v1 * v1 * v1) + 2.6097574011 * (v2 * v2 * v2)
      - 0.3413193965 * (v3 * v3 * v3) - gl| ≤ 1 / 10 ^ 9 := by
    rw [hc1, hc2, hc3, abs_le]
    constructor <;> linarith
  have hoff3 : |(-0.0041960863) * (v1 * v1 * v1) - 0.7034186147 * (v2 * v2 * v2)
      + 1.7076147010 * (v3 * v3 * v3) - bl| ≤ 1 / 10 ^ 9 := by
    rw [hc1, hc2, hc3, abs_le]
    constructor <;> linarith
  obtain ⟨ho1a, ho1b⟩ := abs_le.mp hoff1
  obtain ⟨ho2a, ho2b⟩ := abs_le.mp hoff2
  obtain ⟨ho3a, ho3b⟩ := abs_le.mp hoff3
  refine ⟨?_, ?_, ?_⟩
  · rw [hproj1, abs_le]
    constructor <;> linarith
  · rw [hproj2, abs_le]
    constructor <;> linarith
  · rw [hproj3, abs_le]
    constructor <;> linarith

lemma oklch_to_rgb_of_oklch (L a b : ℝ) :
    oklch_to_rgb (oklab_to_oklch L a b).1 (oklab_to_oklch L a b).2.1
      (oklab_to_oklch L a b).2.2
    = (pyRound (max 0 (min 1 (linear_to_srgb
          (oklab_to_linear_srgb L a b).1)) * 255),
        pyRound (max 0 (min 1 (linear_to_srgb
          (oklab_to_linear_srgb L a b).2.1)) * 255),
        pyRound (max 0 (min 1 (linear_to_srgb
          (oklab_to_linear_srgb L a b).2.2)) * 255)) := by
  unfold oklch_to_rgb
  rw [oklch_oklab_roundtrip L a b]

/-- Per-channel conclusion: if a recovered linear value `w` is within
5·10⁻⁶ of the true linear value of the 8-bit channel `c`, then gamma
encoding, clamping, scaling to 255 and rounding recovers `c` exactly. -/
lemma channel_roundtrip (c : ℕ) (hc : c ≤ 255) (w : ℝ)
    (hw : |w - srgb_to_linear ((c : ℝ) / 255)| ≤ 5 / 10 ^ 6) :
    pyRound (max 0 (min 1 (linear_to_srgb w)) * 255) = (c : ℤ) := by
  have hu0 : (0 : ℝ) ≤ (c : ℝ) / 255 := by positivity
  have hu1 : (c : ℝ) / 255 ≤ 1 := by
    rw [div_le_one (by norm_num : (0 : ℝ) < 255)]
    exact_mod_cast hc
  have hγ := gamma_decode_encode c hc
  have hgd := gamma_diff_bound (srgb_to_linear ((c : ℝ) / 255)) w
    (5 / 10 ^ 6) hw
  rw [hγ] at hgd
  have hclamp := clamp_diff_le (linear_to_srgb w) ((c : ℝ) / 255) hu0 hu1
  have hfull : |max 0 (min 1 (linear_to_srgb w)) - (c : ℝ) / 255|
      ≤ 13 * (5 / 10 ^ 6) + 1 / 10 ^ 7 := le_trans hclamp hgd
  apply pyRound_eq_of_near
  have hmul : (c : ℝ) / 255 * 255 = (c : ℝ) :=
    div_mul_cancel₀ _ (by norm_num)
  have hrw : max 0 (min 1 (linear_to_srgb w)) * 255 - (((c : ℕ) : ℤ) : ℝ)
      = (max 0 (min 1 (linear_to_srgb w)) - (c : ℝ) / 255) * 255 := by
    push_cast
    rw [sub_mul, hmul]
  rw [hrw, abs_mul]
  rw [show |(255 : ℝ)| = 255 by norm_num]
  obtain ⟨hf1, hf2⟩ := abs_le.mp hfull
  have habs : |max 0 (min 1 (linear_to_srgb w)) - (c : ℝ) / 255|
      ≤ 13 * (5 / 10 ^ 6) + 1 / 10 ^ 7 := hfull
  calc |max 0 (min 1 (linear_to_srgb w)) - (c : ℝ) / 255| * 255
      ≤ (13 * (5 / 10 ^ 6) + 1 / 10 ^ 7) * 255 := by
        apply mul_le_mul_of_nonneg_right habs (by norm_num)
    _ < 1 / 2 := by norm_num

/-- C1: converting any 8-bit RGB color to OKLCH with `rgb_to_oklch` and
back with `oklch_to_rgb` reproduces each channel within ±1 (in exact
arithmetic the round trip is exact: the polar step cancels exactly, the
gamma pair is exactly inverse on the 8-bit grid, and the only error —
the approximately-inverse OKLab matrices, about 5·10⁻⁶ per linear
channel — is far below the rounding threshold). -/
theorem rgb_oklch_roundtrip (r g b : ℕ)
    (hr : r ≤ 255) (hg : g ≤ 255) (hb : b ≤ 255) :
    |(oklch_to_rgb (rgb_to_oklch r g b).1 (rgb_to_oklch r g b).2.1
        (rgb_to_oklch r g b).2.2).1 - (r : ℤ)| ≤ 1 ∧
    |(oklch_to_rgb (rgb_to_oklch r g b).1 (rgb_to_oklch r g b).2.1
        (rgb_to_oklch r g b).2.2).2.1 - (g : ℤ)| ≤ 1 ∧
    |(oklch_to_rgb (rgb_to_oklch r g b).1 (rgb_to_oklch r g b).2.1
        (rgb_to_oklch r g b).2.2).2.2 - (b : ℤ)| ≤ 1 := by
  have hur0 : (0 : ℝ) ≤ (r : ℝ) / 255 := by positivity
  have hur1 : (r : ℝ) / 255 ≤ 1 := by
    rw [div_le_one (by norm_num : (0 : ℝ) < 255)]
    exact_mod_cast hr
  have hug0 : (0 : ℝ) ≤ (g : ℝ) / 255 := by positivity
  have hug1 : (g : ℝ) / 255 ≤ 1 := by
    rw [div_le_one (by norm_num : (0 : ℝ) < 255)]
    exact_mod_cast hg
  have hub0 : (0 : ℝ) ≤ (b : ℝ) / 255 := by positivity
  have hub1 : (b : ℝ) / 255 ≤ 1 := by
    rw [div_le_one (by norm_num : (0 : ℝ) < 255)]
    exact_mod_cast hb
  set rl : ℝ := srgb_to_linear ((r : ℝ) / 255) with hrlDef
  set gl : ℝ := srgb_to_linear ((g : ℝ) / 255) with hglDef
  set bl : ℝ := srgb_to_linear ((b : ℝ) / 255) with hblDef
  obtain ⟨hrl0, hrl1⟩ := srgb_to_linear_mem _ hur0 hur1
  obtain ⟨hgl0, hgl1⟩ := srgb_to_linear_mem _ hug0 hug1
  obtain ⟨hbl0, hbl1⟩ := srgb_to_linear_mem _ hub0 hub1
  set lab : ℝ × ℝ × ℝ := linear_srgb_to_oklab rl gl bl with hlabDef
  have hdefeq : rgb_to_oklch r g b = oklab_to_oklch lab.1 lab.2.1 lab.2.2 :=
    rfl
  rw [hdefeq, oklch_to_rgb_of_oklch lab.1 lab.2.1 lab.2.2]
  set l0 : ℝ := 0.4122214708 * rl + 0.5363325363 * gl + 0.0514459929 * bl
    with hl0
  set m0 : ℝ := 0.2119034982 * rl + 0.6806995451 * gl + 0.1073969566 * bl
    with hm0
  set s0 : ℝ := 0.0883024619 * rl + 0.2817188376 * gl + 0.6299787005 * bl
    with hs0
  have hl0m : 0 ≤ l0 ∧ l0 ≤ 1 := by
    constructor <;> (rw [hl0]; linarith)
  have hm0m : 0 ≤ m0 ∧ m0 ≤ 1 := by
    constructor <;> (rw [hm0]; linarith)
  have hs0m : 0 ≤ s0 ∧ s0 ≤ 1 := by
    constructor <;> (rw [hs0]; linarith)
  obtain ⟨hv1a, hv1b, hv1c⟩ := cbrt_mem_unit l0 hl0m.1 hl0m.2
  obtain ⟨hv2a, hv2b, hv2c⟩ := cbrt_mem_unit m0 hm0m.1 hm0m.2
  obtain ⟨hv3a, hv3b, hv3c⟩ := cbrt_mem_unit s0 hs0m.1 hs0m.2
  have hlab1 : lab.1 = 0.2104542553 * cbrt l0 + 0.7936177850 * cbrt m0
      - 0.0040720468 * cbrt s0 := rfl
  have hlab2 : lab.2.1 = 1.9779984951 * cbrt l0 - 2.4285922050 * cbrt m0
      + 0.4505937099 * cbrt s0 := rfl
  have hlab3 : lab.2.2 = 0.0259040371 * cbrt l0 + 0.7827717662 * cbrt m0
      - 0.8086757660 * cbrt s0 := rfl
  obtain ⟨hch1, hch2, hch3⟩ := oklab_roundtrip_channel_bound rl gl bl
    (cbrt l0) (cbrt m0) (cbrt s0) lab.1 lab.2.1 lab.2.2
    hv1a hv1b hv2a hv2b hv3a hv3b hrl0 hrl1 hgl0 hgl1 hbl0 hbl1
    (hv1c.trans hl0) (hv2c.trans hm0) (hv3c.trans hs0) hlab1 hlab2 hlab3
  have hr1 := channel_roundtrip r hr _ hch1
  have hg1 := channel_roundtrip g hg _ hch2
  have hb1 := channel_roundtrip b hb _ hch3
  refine ⟨?_, ?_, ?_⟩
  · show |pyRound (max 0 (min 1 (linear_to_srgb
        (oklab_to_linear_srgb lab.1 lab.2.1 lab.2.2).1)) * 255) - (r : ℤ)| ≤ 1
    rw [hr1]
    simp
  · show |pyRound (max 0 (min 1 (linear_to_srgb
        (oklab_to_linear_srgb lab.1 lab.2.1 lab.2.2).2.1)) * 255) - (g : ℤ)| ≤ 1
    rw [hg1]
    simp
  · show |pyRound (max 0 (min 1 (linear_to_srgb
        (oklab_to_linear_srgb lab.1 lab.2.1 lab.2.2).2.2)) * 255) - (b : ℤ)| ≤ 1
    rw [hb1]
    simp

theorem rgb_oklch_roundtrip_witness :
    (200 : ℕ) ≤ 255 ∧ (50 : ℕ) ≤ 255 ∧ (17 : ℕ) ≤ 255 ∧
    |(oklch_to_rgb (rgb_to_oklch 200 50 17).1 (rgb_to_oklch 200 50 17).2.1
        (rgb_to_oklch 200 50 17).2.2).1 - (200 : ℤ)| ≤ 1 :=
  ⟨by decide, by decide, by decide,
    (rgb_oklch_roundtrip 200 50 17 (by decide) (by decide) (by decide)).1⟩

end AreaColorViewer
